import Mathlib

/-!
# Verification of the yaml-to-env pipeline

A shallow embedding of `src/main.rs` of the `yaml-to-env` tool: a CLI that
reads a manifest (config) file listing paths to `.yaml` source files,
validates the paths' extensions, extracts `key:value` pairs from each
source file's lines (splitting at the first colon), merges them into one
map, and serializes the map as `KEY=VALUE` lines.

Strings are modelled as Lean `String`s (lists of chars); file contents are
supplied through an explicit file-system function `fs : String → Option
String` (`none` models an unreadable file, on which the Rust code panics
via `.expect`). Rust's `HashMap` is modelled as an association list with
unique keys kept in insertion order; its iteration order (which Rust
leaves unspecified) is the model's list order.
-/

namespace YamlToEnv

/-! ## Character-level string helpers (models of Rust `str` methods) -/

/-- Split a character list at every occurrence of `sep`; the separators are
dropped and the (possibly empty) segments between them are returned.
Models the segment structure underlying Rust's `str::split`. -/
def splitOnCharL (sep : Char) : List Char → List (List Char)
  | [] => [[]]
  | c :: rest =>
    if c = sep then
      [] :: splitOnCharL sep rest
    else
      match splitOnCharL sep rest with
      | [] => [[c]]
      | l :: ls => (c :: l) :: ls

/-- Model of Rust `str::split_once(sep)`: split at the *first* occurrence of
`sep` into the part before it and the entire part after it, or `none` if
`sep` does not occur. -/
def splitOnceChar (sep : Char) : List Char → Option (List Char × List Char)
  | [] => none
  | c :: rest =>
    if c = sep then
      some ([], rest)
    else
      match splitOnceChar sep rest with
      | none => none
      | some (a, b) => some (c :: a, b)

/-- Remove one trailing carriage return, if present (the `\r` of a `\r\n`
line ending, as Rust's `str::lines` does). -/
def stripCR (l : List Char) : List Char :=
  if l.getLast? = some '\r' then l.dropLast else l

/-- Apply `f` to every element of a list except the last one. -/
def mapInit {α : Type} (f : α → α) : List α → List α
  | [] => []
  | [a] => [a]
  | a :: b :: rest => f a :: mapInit f (b :: rest)

/-- Model of Rust `str::lines` on character lists: split at `'\n'`,
dropping a final empty segment (a trailing line terminator produces no
extra empty line), and strip the `'\r'` of a `\r\n` ending; a `'\r'` not
followed by `'\n'` (possible only in the final, unterminated line) is
kept. -/
def rustLinesChars (cs : List Char) : List (List Char) :=
  let segs := splitOnCharL '\n' cs
  if segs.getLast? = some ([] : List Char) then
    segs.dropLast.map stripCR
  else
    mapInit stripCR segs

/-- Model of Rust `str::lines` producing strings. -/
def rustLines (s : String) : List String :=
  (rustLinesChars s.toList).map String.mk

/-- The Unicode `White_Space` code points, as tested by Rust's
`char::is_whitespace` (used by `str::trim`). -/
def isRustWhitespace (c : Char) : Bool :=
  let n := c.toNat
  (0x09 ≤ n && n ≤ 0x0D) || n = 0x20 || n = 0x85 || n = 0xA0 || n = 0x1680 ||
    (0x2000 ≤ n && n ≤ 0x200A) || n = 0x2028 || n = 0x2029 || n = 0x202F ||
    n = 0x205F || n = 0x3000

/-- Model of Rust `str::trim`: remove leading and trailing whitespace. -/
def rustTrim (s : String) : String :=
  String.mk (((s.toList.dropWhile isRustWhitespace).reverse.dropWhile
    isRustWhitespace).reverse)

/-! ## Path model (Rust `std::path::Path::extension`) -/

/-- Model of Rust `Path::file_name` on a path string: the last non-empty,
non-`.` slash-separated component, or `none` when there is none or it is
`..`. -/
def fileName (s : String) : Option (List Char) :=
  let comps := (splitOnCharL '/' s.toList).filter
    (fun c => decide (c ≠ [] ∧ c ≠ ['.']))
  match comps.getLast? with
  | none => none
  | some c => if c = ['.', '.'] then none else some c

/-- Helper for `extension`: given the *reversed* character list of a file
name, return the reversed extension — the characters before the first
`'.'` — provided at least one character follows that `'.'` (so a name
like `.gitignore` has no extension), or `none` when there is no `'.'`. -/
def extOfRev : List Char → Option (List Char)
  | [] => none
  | c :: cs =>
    if c = '.' then
      if cs.isEmpty then none else some []
    else
      match extOfRev cs with
      | none => none
      | some e => some (c :: e)

/-- Model of Rust `Path::extension` on a path string: the portion of the
file name after its final `'.'`, when the portion before that `'.'` is
non-empty; `none` when the path has no file name or the file name has no
such dot. -/
def extension (s : String) : Option String :=
  match fileName s with
  | none => none
  | some n =>
    match extOfRev n.reverse with
    | none => none
    | some e => some (String.mk e.reverse)

/-! ## Error messages (verbatim from the source) -/

def CONFIG_READ_ERROR_MESSAGE : String := "Could not read config file"

def NOT_YAML_FILE_PATH_ERROR_MESSAGE : String :=
  "All paths in config file must have .yaml extension"

/-- `create_yaml_file_read_err` from the source. -/
def create_yaml_file_read_err (path : String) : String :=
  "Could not read yaml file with path: " ++ path

/-- `create_yaml_content_validation_err` from the source. -/
def create_yaml_content_validation_err (path : String) : String :=
  "Unsupported yaml structure in file with path: " ++ path

/-! ## Manifest reading and path validation -/

/-- `read_config_file` from the source, applied to the already-read config
file content: each line of the config file, verbatim, is one path. -/
def read_config_file (content : String) : List String :=
  rustLines content

/-- Outcome of `assert_paths_are_yaml_files`: `Ok(paths)`, a
`clap::Error` with `ErrorKind::ValueValidation` (the `PathValidationError`
of the spec), or a Rust panic (from `Option::unwrap` on `None`). -/
inductive ValidateResult where
  | ok (paths : List String)
  | err (msg : String)
  | panic
  deriving DecidableEq

/-- The evaluation of `paths.iter().all(|path| path.extension().unwrap() ==
"yaml")` in the source: Rust's `all` stops at the first element whose
predicate is `false`, and the predicate *panics* (modelled as `none`) when
`extension()` is `None`. -/
def checkAllYaml : List String → Option Bool
  | [] => some true
  | p :: ps =>
    match extension p with
    | none => none
    | some e => if e = "yaml" then checkAllYaml ps else some false

/-- `assert_paths_are_yaml_files` from the source. -/
def assert_paths_are_yaml_files (paths : List String) : ValidateResult :=
  match checkAllYaml paths with
  | some true => .ok paths
  | some false => .err NOT_YAML_FILE_PATH_ERROR_MESSAGE
  | none => .panic

/-! ## The environment map (Rust `HashMap<String, String>`) -/

/-- The map is an association list in insertion order. Inserting an
existing key updates its value in place (like `HashMap::insert`, the
stored key is not replaced); a new key is appended. -/
def insertEnv : List (String × String) → String → String → List (String × String)
  | [], k, v => [(k, v)]
  | p :: rest, k, v =>
    if p.1 == k then (p.1, v) :: rest else p :: insertEnv rest k v

/-- Model of `HashMap::extend`: insert each pair in order. -/
def extendEnv (m : List (String × String)) (ps : List (String × String)) :
    List (String × String) :=
  ps.foldl (fun m p => insertEnv m p.1 p.2) m

/-- Value lookup in the map. -/
def lookupEnv (m : List (String × String)) (k : String) : Option String :=
  (m.find? (fun p => p.1 == k)).map (fun p => p.2)

/-- The keys of the map. -/
def keys (m : List (String × String)) : List String :=
  m.map (fun p => p.1)

/-! ## Entry extraction (`create_env_hashmap`) -/

/-- One line's parse in `create_env_hashmap`: `l.split_once(':')` mapped to
owned strings. -/
def parseEnvLine (l : String) : Option (String × String) :=
  match splitOnceChar ':' l.toList with
  | none => none
  | some (key, value) => some (String.mk key, String.mk value)

/-- The per-file body of `create_env_hashmap`: parse every line; if any
line has no colon, the file is rejected (`none`); otherwise return the
pairs in line order (the `unwrap_or` default of the source is kept,
although it is unreachable once the `any` check passed). -/
def extract_file_pairs (file : String) : Option (List (String × String)) :=
  let parsed := (rustLines file).map parseEnvLine
  if parsed.any (fun r => r.isNone) then
    none
  else
    some (parsed.map (fun r => r.getD ("", "")))

/-- Outcome of `create_env_hashmap`: the merged map, a `clap::Error` with
`ErrorKind::ValueValidation` (the `ContentValidationError` of the spec),
or the panic of `.expect` when a source file cannot be read. -/
inductive EnvResult where
  | ok (map : List (String × String))
  | err (msg : String)
  | panicRead (msg : String)
  deriving DecidableEq

/-- `create_env_hashmap` from the source: fold over the validated paths in
manifest order, reading each file through `fs`, extending the accumulated
map with the file's pairs, and aborting with `ContentValidationError` on
the first file containing a colon-free line. -/
def create_env_hashmap (fs : String → Option String) :
    List String → List (String × String) → EnvResult
  | [], m => .ok m
  | path :: rest, m =>
    match fs path with
    | none => .panicRead (create_yaml_file_read_err path)
    | some file =>
      match extract_file_pairs file with
      | none => .err (create_yaml_content_validation_err path)
      | some pairs => create_env_hashmap fs rest (extendEnv m pairs)

/-! ## Serialization (`convert_map_to_string`) and the driver (`main`) -/

/-- `convert_map_to_string` from the source: for each entry, in the map's
iteration order, append `trim(key)=trim(value)` and a newline. -/
def convert_map_to_string (m : List (String × String)) : String :=
  m.foldl (fun acc p => acc ++ (rustTrim p.1 ++ "=" ++ rustTrim p.2 ++ "\n")) ""

/-- `main` from the source, given the (already-read) config file content
and the file system: `some content` means `write_env_file` is reached with
exactly that output content; `none` means the run aborts (an `.unwrap()`
panic on a validation or extraction error, or a read panic) before the
output file is created, so the output path is untouched. -/
def run (fs : String → Option String) (configContent : String) : Option String :=
  let input_paths := read_config_file configContent
  match assert_paths_are_yaml_files input_paths with
  | .ok yaml_file_paths =>
    match create_env_hashmap fs yaml_file_paths [] with
    | .ok env_map => some (convert_map_to_string env_map)
    | _ => none
  | _ => none

/-! ## Lemmas about strings and `splitOnceChar` -/

theorem mk_toList (s : String) : String.mk s.toList = s := rfl

theorem toList_append (s t : String) : (s ++ t).toList = s.toList ++ t.toList :=
  String.data_append s t

theorem splitOnceChar_of_not_mem {sep : Char} :
    ∀ {cs : List Char}, sep ∉ cs → splitOnceChar sep cs = none := by
  intro cs
  induction cs with
  | nil => intro _; rfl
  | cons c rest ih =>
    intro h
    simp only [List.mem_cons, not_or] at h
    have hcs : ¬c = sep := fun e => h.1 e.symm
    simp only [splitOnceChar, if_neg hcs, ih h.2]

theorem splitOnceChar_append {sep : Char} :
    ∀ (a b : List Char), sep ∉ a → splitOnceChar sep (a ++ sep :: b) = some (a, b) := by
  intro a
  induction a with
  | nil => intro b _; simp [splitOnceChar]
  | cons c rest ih =>
    intro b h
    simp only [List.mem_cons, not_or] at h
    have hcs : ¬c = sep := fun e => h.1 e.symm
    simp only [List.cons_append, splitOnceChar, if_neg hcs, List.append_eq,
      ih b h.2]

theorem splitOnceChar_of_mem {sep : Char} :
    ∀ {cs : List Char}, sep ∈ cs →
      splitOnceChar sep cs =
        some (cs.takeWhile (fun c => c != sep), (cs.dropWhile (fun c => c != sep)).tail) := by
  intro cs
  induction cs with
  | nil => intro h; exact absurd h (List.not_mem_nil sep)
  | cons c rest ih =>
    intro h
    by_cases hc : c = sep
    · subst hc
      simp [splitOnceChar, List.takeWhile, List.dropWhile]
    · have hrest : sep ∈ rest := by
        rcases List.mem_cons.mp h with h1 | h1
        · exact absurd h1.symm hc
        · exact h1
      have hne : (c != sep) = true := by simp [bne, hc]
      simp only [splitOnceChar, if_neg hc, ih hrest, List.takeWhile, List.dropWhile, hne]

theorem parseEnvLine_of_not_mem {l : String} (h : ':' ∉ l.toList) :
    parseEnvLine l = none := by
  simp only [parseEnvLine, splitOnceChar_of_not_mem h]

/-! ## Lemmas about the environment map -/

theorem lookupEnv_insertEnv_self (m : List (String × String)) (k v : String) :
    lookupEnv (insertEnv m k v) k = some v := by
  induction m with
  | nil => simp [insertEnv, lookupEnv, List.find?]
  | cons p rest ih =>
    simp only [insertEnv]
    by_cases h : (p.1 == k) = true
    · simp [lookupEnv, List.find?, h]
    · rw [if_neg h]
      simp only [lookupEnv, List.find?] at ih ⊢
      rw [Bool.not_eq_true] at h
      rw [h]
      exact ih

theorem lookupEnv_insertEnv_ne (m : List (String × String)) (k k' v : String)
    (hne : k' ≠ k) : lookupEnv (insertEnv m k v) k' = lookupEnv m k' := by
  have hbne : (k == k') = false := by
    simp [hne.symm]
  induction m with
  | nil => simp [insertEnv, lookupEnv, List.find?, hbne]
  | cons p rest ih =>
    simp only [insertEnv]
    by_cases h : (p.1 == k) = true
    · have hp : p.1 = k := by simpa using h
      simp [lookupEnv, List.find?, hp, hbne]
    · rw [if_neg h]
      simp only [lookupEnv, List.find?] at ih ⊢
      cases hk' : (p.1 == k') <;> simp [hk', ih]

theorem keys_insertEnv (m : List (String × String)) (k v : String) :
    keys (insertEnv m k v) = if k ∈ keys m then keys m else keys m ++ [k] := by
  induction m with
  | nil => simp [insertEnv, keys]
  | cons p rest ih =>
    simp only [insertEnv]
    by_cases h : (p.1 == k) = true
    · have hp : p.1 = k := by simpa using h
      simp [keys, hp]
    · have hp : ¬p.1 = k := by simpa using h
      rw [if_neg h]
      simp only [keys, List.map_cons] at ih ⊢
      rw [ih]
      by_cases hk : k ∈ List.map (fun p => p.1) rest
      · rw [if_pos hk, if_pos (List.mem_cons_of_mem _ hk)]
      · rw [if_neg hk, if_neg ?_]
        · simp
        · intro hmem
          rcases List.mem_cons.mp hmem with h1 | h1
          · exact hp h1.symm
          · exact hk h1

theorem nodup_keys_insertEnv (m : List (String × String)) (k v : String)
    (h : (keys m).Nodup) : (keys (insertEnv m k v)).Nodup := by
  rw [keys_insertEnv]
  by_cases hk : k ∈ keys m
  · rwa [if_pos hk]
  · rw [if_neg hk]
    rw [List.nodup_append]
    exact ⟨h, List.nodup_singleton k, List.disjoint_singleton.mpr hk⟩

theorem insertEnv_idem (m : List (String × String)) (k v : String) :
    insertEnv (insertEnv m k v) k v = insertEnv m k v := by
  induction m with
  | nil => simp [insertEnv]
  | cons p rest ih =>
    simp only [insertEnv]
    by_cases h : (p.1 == k) = true
    · simp [insertEnv, h]
    · rw [if_neg h]
      simp only [insertEnv, if_neg h, ih]

theorem extendEnv_nil (m : List (String × String)) : extendEnv m [] = m := rfl

theorem extendEnv_cons (m : List (String × String)) (p : String × String)
    (ps : List (String × String)) :
    extendEnv m (p :: ps) = extendEnv (insertEnv m p.1 p.2) ps := rfl

theorem extendEnv_append (m : List (String × String))
    (ps₁ ps₂ : List (String × String)) :
    extendEnv m (ps₁ ++ ps₂) = extendEnv (extendEnv m ps₁) ps₂ := by
  simp [extendEnv, List.foldl_append]

theorem lookupEnv_extendEnv :
    ∀ (ps : List (String × String)) (m : List (String × String)) (k : String),
      lookupEnv (extendEnv m ps) k =
        match (ps.filter (fun p => p.1 == k)).getLast? with
        | some q => some q.2
        | none => lookupEnv m k := by
  intro ps
  induction ps with
  | nil => intro m k; simp [extendEnv]
  | cons p rest ih =>
    intro m k
    rw [extendEnv_cons, ih]
    by_cases h : (p.1 == k) = true
    · have hp : p.1 = k := by simpa using h
      rw [List.filter_cons, if_pos h]
      cases hf : rest.filter (fun p => p.1 == k) with
      | nil =>
        simp only [hf, List.getLast?_singleton, List.getLast?_nil]
        rw [hp, lookupEnv_insertEnv_self]
      | cons q l =>
        rw [List.getLast?_cons_cons]
        cases hg : (q :: l).getLast? with
        | none => simp at hg
        | some r => rfl
    · rw [List.filter_cons, if_neg h]
      have hp : k ≠ p.1 := by
        intro e
        exact h (by simp [e])
      cases hf : rest.filter (fun p => p.1 == k) with
      | nil =>
        simp only [hf, List.getLast?_nil]
        exact lookupEnv_insertEnv_ne m p.1 k p.2 hp
      | cons q l =>
        cases hg : (q :: l).getLast? with
        | none => simp at hg
        | some r => rfl

theorem nodup_keys_extendEnv :
    ∀ (ps : List (String × String)) (m : List (String × String)),
      (keys m).Nodup → (keys (extendEnv m ps)).Nodup := by
  intro ps
  induction ps with
  | nil => intro m h; exact h
  | cons p rest ih =>
    intro m h
    rw [extendEnv_cons]
    exact ih _ (nodup_keys_insertEnv m p.1 p.2 h)

theorem create_env_hashmap_cons_panic {fs : String → Option String}
    {path : String} (rest : List String) (m : List (String × String))
    (hread : fs path = none) :
    create_env_hashmap fs (path :: rest) m =
      .panicRead (create_yaml_file_read_err path) := by
  simp only [create_env_hashmap, hread]

theorem create_env_hashmap_cons_err {fs : String → Option String}
    {path : String} {file : String} (rest : List String)
    (m : List (String × String)) (hread : fs path = some file)
    (hx : extract_file_pairs file = none) :
    create_env_hashmap fs (path :: rest) m =
      .err (create_yaml_content_validation_err path) := by
  simp only [create_env_hashmap, hread, hx]

theorem create_env_hashmap_cons_ok {fs : String → Option String}
    {path : String} {file : String} {pairs : List (String × String)}
    (rest : List String) (m : List (String × String))
    (hread : fs path = some file) (hx : extract_file_pairs file = some pairs) :
    create_env_hashmap fs (path :: rest) m =
      create_env_hashmap fs rest (extendEnv m pairs) := by
  simp only [create_env_hashmap, hread, hx]

theorem create_env_hashmap_ok_nodup (fs : String → Option String) :
    ∀ (paths : List String) (m m' : List (String × String)),
      (keys m).Nodup → create_env_hashmap fs paths m = .ok m' →
      (keys m').Nodup := by
  intro paths
  induction paths with
  | nil =>
    intro m m' hm h
    simp only [create_env_hashmap, EnvResult.ok.injEq] at h
    exact h ▸ hm
  | cons path rest ih =>
    intro m m' hm h
    cases hread : fs path with
    | none =>
      rw [create_env_hashmap_cons_panic rest m hread] at h
      exact absurd h (by simp)
    | some file =>
      cases hx : extract_file_pairs file with
      | none =>
        rw [create_env_hashmap_cons_err rest m hread hx] at h
        exact absurd h (by simp)
      | some pairs =>
        rw [create_env_hashmap_cons_ok rest m hread hx] at h
        exact ih _ _ (nodup_keys_extendEnv pairs m hm) h

/-! ## Lemmas about extraction and serialization -/

theorem extract_file_pairs_eq_none {file : String}
    (h : ∃ l ∈ rustLines file, ':' ∉ l.toList) :
    extract_file_pairs file = none := by
  obtain ⟨l, hl, hnc⟩ := h
  have hany : ((rustLines file).map parseEnvLine).any (fun r => r.isNone) = true := by
    rw [List.any_eq_true]
    exact ⟨parseEnvLine l, List.mem_map_of_mem parseEnvLine hl,
      by rw [parseEnvLine_of_not_mem hnc]; rfl⟩
  simp only [extract_file_pairs, hany, if_true]

theorem extract_file_pairs_eq_some {file : String}
    (h : ∀ l ∈ rustLines file, ':' ∈ l.toList) :
    extract_file_pairs file =
      some ((rustLines file).map (fun l =>
        (String.mk (l.toList.takeWhile (fun c => c != ':')),
         String.mk ((l.toList.dropWhile (fun c => c != ':')).tail)))) := by
  have hline : ∀ l ∈ rustLines file, parseEnvLine l =
      some (String.mk (l.toList.takeWhile (fun c => c != ':')),
        String.mk ((l.toList.dropWhile (fun c => c != ':')).tail)) := by
    intro l hl
    rw [parseEnvLine, splitOnceChar_of_mem (h l hl)]
  rw [extract_file_pairs]
  rw [List.map_congr_left hline]
  have hany : ((rustLines file).map (fun l =>
      some ((String.mk (l.toList.takeWhile (fun c => c != ':')),
        String.mk ((l.toList.dropWhile (fun c => c != ':')).tail))))).any
        (fun r => r.isNone) = false := by
    rw [Bool.eq_false_iff]
    intro hc
    rw [List.any_eq_true] at hc
    obtain ⟨r, hr, hnone⟩ := hc
    rw [List.mem_map] at hr
    obtain ⟨l, _, rfl⟩ := hr
    simp at hnone
  rw [hany]
  simp only [if_false, List.map_map]
  rfl

theorem string_foldl_eq_join (f : (String × String) → String) :
    ∀ (l : List (String × String)) (acc : String),
      l.foldl (fun a p => a ++ f p) acc = acc ++ String.join (l.map f) := by
  have hjoin : ∀ (l : List String) (a : String),
      l.foldl (· ++ ·) a = a ++ String.join l := by
    intro l
    induction l with
    | nil => intro a; rw [List.foldl_nil, String.join]; exact (String.append_empty a).symm
    | cons s rest ih =>
      intro a
      rw [List.foldl_cons, ih]
      have hs : String.join (s :: rest) = s ++ String.join rest := by
        rw [String.join, List.foldl_cons, ih, String.empty_append]
      rw [hs, String.append_assoc]
  intro l
  induction l with
  | nil =>
    intro acc
    rw [List.foldl_nil, List.map_nil, String.join, List.foldl_nil]
    exact (String.append_empty acc).symm
  | cons p rest ih =>
    intro acc
    rw [List.foldl_cons, ih, List.map_cons]
    have hs : String.join (f p :: rest.map f) = f p ++ String.join (rest.map f) := by
      rw [String.join, List.foldl_cons, String.empty_append, hjoin]
    rw [hs, String.append_assoc]

theorem convert_map_to_string_eq_join (m : List (String × String)) :
    convert_map_to_string m =
      String.join (m.map (fun p => rustTrim p.1 ++ "=" ++ rustTrim p.2 ++ "\n")) := by
  rw [convert_map_to_string, string_foldl_eq_join, String.empty_append]

/-! ## Lemmas about path validation -/

theorem checkAllYaml_eq_true_iff :
    ∀ (paths : List String),
      checkAllYaml paths = some true ↔ ∀ p ∈ paths, extension p = some "yaml" := by
  intro paths
  induction paths with
  | nil => simp [checkAllYaml]
  | cons p rest ih =>
    constructor
    · intro h
      cases he : extension p with
      | none =>
        simp only [checkAllYaml, he] at h
        exact absurd h (by simp)
      | some e =>
        simp only [checkAllYaml, he] at h
        by_cases hy : e = "yaml"
        · rw [if_pos hy] at h
          intro q hq
          rcases List.mem_cons.mp hq with h1 | h1
          · rw [h1, he, hy]
          · exact (ih.mp h) q h1
        · rw [if_neg hy] at h
          exact absurd h (by simp)
    · intro h
      have hp : extension p = some "yaml" := h p (List.mem_cons_self p rest)
      simp only [checkAllYaml, hp, if_pos]
      exact ih.mpr (fun q hq => h q (List.mem_cons_of_mem p hq))

theorem checkAllYaml_append_false {p e : String}
    (he : extension p = some e) (hne : e ≠ "yaml") :
    ∀ (pre : List String), (∀ q ∈ pre, extension q = some "yaml") →
      ∀ (post : List String), checkAllYaml (pre ++ p :: post) = some false := by
  intro pre
  induction pre with
  | nil =>
    intro _ post
    rw [List.nil_append]
    simp only [checkAllYaml, he, if_neg hne]
  | cons q rest ih =>
    intro h post
    have hq : extension q = some "yaml" := h q (List.mem_cons_self q rest)
    rw [List.cons_append]
    simp only [checkAllYaml, hq, if_pos]
    exact ih (fun r hr => h r (List.mem_cons_of_mem q hr)) post

/-! ## Claim theorems -/

/-- C1: for every source file in which every line contains at least one
colon, extraction succeeds and yields exactly one (key, value) pair per
line, split at the first colon only: the key is the substring before the
first colon, the value is the entire substring after it (later colons stay
in the value), and both are untrimmed. -/
theorem extraction_splits_each_line_at_first_colon (file : String)
    (h : ∀ l ∈ rustLines file, ':' ∈ l.toList) :
    extract_file_pairs file =
      some ((rustLines file).map (fun l =>
        (String.mk (l.toList.takeWhile (fun c => c != ':')),
         String.mk ((l.toList.dropWhile (fun c => c != ':')).tail)))) ∧
    ∀ pairs, extract_file_pairs file = some pairs →
      pairs.length = (rustLines file).length := by
  refine ⟨extract_file_pairs_eq_some h, ?_⟩
  intro pairs hp
  rw [extract_file_pairs_eq_some h, Option.some.injEq] at hp
  rw [← hp, List.length_map]

/-- Witness for C1 at the file `"A:1\nB:2:3"`: both lines have a colon,
and the second line splits only at its first colon. -/
theorem extraction_splits_each_line_at_first_colon_witness :
    (∀ l ∈ rustLines "A:1\nB:2:3", ':' ∈ l.toList) ∧
    extract_file_pairs "A:1\nB:2:3" =
      some ((rustLines "A:1\nB:2:3").map (fun l =>
        (String.mk (l.toList.takeWhile (fun c => c != ':')),
         String.mk ((l.toList.dropWhile (fun c => c != ':')).tail)))) ∧
    extract_file_pairs "A:1\nB:2:3" = some [("A", "1"), ("B", "2:3")] :=
  ⟨by decide,
   (extraction_splits_each_line_at_first_colon "A:1\nB:2:3" (by decide)).1,
   by decide⟩

/-- C2: duplicate keys are merged last-writer-wins, in manifest order then
file line order; the merged mapping has exactly one entry per key; merging
the same (key, value) pair twice yields one entry (per-key idempotence). -/
theorem merge_last_wins :
    (∀ m k v, insertEnv (insertEnv m k v) k v = insertEnv m k v) ∧
    (∀ (fs : String → Option String) path rest m file pairs,
      fs path = some file → extract_file_pairs file = some pairs →
      create_env_hashmap fs (path :: rest) m =
        create_env_hashmap fs rest (extendEnv m pairs)) ∧
    (∀ m ps₁ ps₂, extendEnv m (ps₁ ++ ps₂) = extendEnv (extendEnv m ps₁) ps₂) ∧
    (∀ ps m k, lookupEnv (extendEnv m ps) k =
      match (ps.filter (fun p => p.1 == k)).getLast? with
      | some q => some q.2
      | none => lookupEnv m k) ∧
    (∀ (fs : String → Option String) paths m',
      create_env_hashmap fs paths [] = .ok m' →
      (keys m').Nodup ∧ ∀ k ∈ keys m', (keys m').count k = 1) := by
  refine ⟨insertEnv_idem, ?_, extendEnv_append, lookupEnv_extendEnv, ?_⟩
  · intro fs path rest m file pairs h1 h2
    exact create_env_hashmap_cons_ok rest m h1 h2
  · intro fs paths m' h
    have hd : (keys m').Nodup :=
      create_env_hashmap_ok_nodup fs paths [] m' (by simp [keys]) h
    exact ⟨hd, fun k hk => List.count_eq_one_of_mem hd hk⟩

/-- Witness for C2: merging `("A", "1")` twice yields one entry; processing
a file whose lines redefine `A` happens in line order, and the resulting
map has nodup keys. -/
theorem merge_last_wins_witness :
    insertEnv (insertEnv [] "A" "1") "A" "1" = insertEnv [] "A" "1" ∧
    create_env_hashmap (fun _ => some "A:1\nA:2") ["a.yaml"] [] =
      create_env_hashmap (fun _ => some "A:1\nA:2") []
        (extendEnv [] [("A", "1"), ("A", "2")]) ∧
    (keys [("A", "2")]).Nodup :=
  ⟨merge_last_wins.1 [] "A" "1",
   merge_last_wins.2.1 (fun _ => some "A:1\nA:2") "a.yaml" [] [] "A:1\nA:2"
     [("A", "1"), ("A", "2")] rfl (by decide),
   (merge_last_wins.2.2.2.2 (fun _ => some "A:1\nA:2") ["a.yaml"] [("A", "2")]
     (by decide)).1⟩

/-- C3: serialization produces, for each entry in iteration order, the
line `trim(key)=trim(value)` followed by a line terminator, with
whitespace trimmed from key and value independently; the entry
`(" A ", " b ")` serializes as the line `A=b`. -/
theorem serialization_trims_and_formats :
    (∀ m : List (String × String), convert_map_to_string m =
      String.join (m.map (fun p => rustTrim p.1 ++ "=" ++ rustTrim p.2 ++ "\n"))) ∧
    rustTrim " A " = "A" ∧ rustTrim " b " = "b" ∧
    convert_map_to_string [(" A ", " b ")] = "A=b\n" ∧
    rustLines (convert_map_to_string [(" A ", " b ")]) = ["A=b"] :=
  ⟨convert_map_to_string_eq_join, by decide, by decide, by decide, by decide⟩

/-- C4: a source file with at least one colon-free line makes
`create_env_hashmap` abort at that file with the `ContentValidationError`
whose message names the file's path; no mapping is produced. -/
theorem malformed_line_rejects_whole_file (fs : String → Option String)
    (path : String) (rest : List String) (m : List (String × String))
    (file : String) (hread : fs path = some file)
    (hbad : ∃ l ∈ rustLines file, ':' ∉ l.toList) :
    create_env_hashmap fs (path :: rest) m =
      .err (create_yaml_content_validation_err path) ∧
    create_yaml_content_validation_err path =
      "Unsupported yaml structure in file with path: " ++ path :=
  ⟨create_env_hashmap_cons_err rest m hread (extract_file_pairs_eq_none hbad),
   rfl⟩

/-- Witness for C4 at the spec's failure scenario: `a.yaml` with content
`"FOO:bar\nnocolonhere"` is rejected whole, though its first line is
valid. -/
theorem malformed_line_rejects_whole_file_witness :
    create_env_hashmap (fun _ => some "FOO:bar\nnocolonhere") ["a.yaml"] [] =
      .err (create_yaml_content_validation_err "a.yaml") :=
  (malformed_line_rejects_whole_file (fun _ => some "FOO:bar\nnocolonhere")
    "a.yaml" [] [] "FOO:bar\nnocolonhere" rfl (by decide)).1

/-- C5 counterexample: `"a.txt"` has an extension different from `"yaml"`,
yet for the path sequence `["noext", "a.txt"]` validation does not fail
with the `PathValidationError`: it panics at `"noext"` first (Rust's
`all` evaluates `extension().unwrap()` on `"noext"` before reaching
`"a.txt"`). -/
theorem path_validation_counterexample :
    extension "a.txt" = some "txt" ∧ ("txt" : String) ≠ "yaml" ∧
    assert_paths_are_yaml_files ["noext", "a.txt"] = ValidateResult.panic ∧
    ∀ msg, assert_paths_are_yaml_files ["noext", "a.txt"] ≠ ValidateResult.err msg := by
  refine ⟨by decide, by decide, by decide, ?_⟩
  intro msg h
  rw [show assert_paths_are_yaml_files ["noext", "a.txt"] = ValidateResult.panic
    from by decide] at h
  exact ValidateResult.noConfusion h

/-- C5 (amended): validation succeeds — returning the sequence unchanged —
exactly when every path's extension is `"yaml"`; if some path has a
*different* extension and every path before the first such path has
extension `"yaml"`, the whole batch fails with `PathValidationError`; and
when validation fails this way, the run aborts for every file system (so
no source file is read). -/
theorem path_validation_amended :
    (∀ paths : List String, assert_paths_are_yaml_files paths = .ok paths ↔
      ∀ p ∈ paths, extension p = some "yaml") ∧
    (∀ paths r, assert_paths_are_yaml_files paths = .ok r → r = paths) ∧
    (∀ (pre : List String) (p e : String) (post : List String),
      (∀ q ∈ pre, extension q = some "yaml") →
      extension p = some e → e ≠ "yaml" →
      assert_paths_are_yaml_files (pre ++ p :: post) =
        .err NOT_YAML_FILE_PATH_ERROR_MESSAGE) ∧
    (∀ config msg, assert_paths_are_yaml_files (read_config_file config) = .err msg →
      ∀ fs, run fs config = none) := by
  refine ⟨?_, ?_, ?_, ?_⟩
  · intro paths
    constructor
    · intro h
      apply (checkAllYaml_eq_true_iff paths).mp
      cases hc : checkAllYaml paths with
      | none =>
        simp only [assert_paths_are_yaml_files, hc] at h
        exact ValidateResult.noConfusion h
      | some b =>
        cases b with
        | false =>
          simp only [assert_paths_are_yaml_files, hc] at h
          exact ValidateResult.noConfusion h
        | true => rfl
    · intro h
      have hc := (checkAllYaml_eq_true_iff paths).mpr h
      simp only [assert_paths_are_yaml_files, hc]
  · intro paths r h
    cases hc : checkAllYaml paths with
    | none =>
      simp only [assert_paths_are_yaml_files, hc] at h
      exact ValidateResult.noConfusion h
    | some b =>
      cases b with
      | false =>
        simp only [assert_paths_are_yaml_files, hc] at h
        exact ValidateResult.noConfusion h
      | true =>
        simp only [assert_paths_are_yaml_files, hc, ValidateResult.ok.injEq] at h
        exact h.symm
  · intro pre p e post hpre he hne
    have hc := checkAllYaml_append_false he hne pre hpre post
    simp only [assert_paths_are_yaml_files, hc]
  · intro config msg h fs
    simp only [run, h]

/-- Witness for C5 (amended): `["a.yaml"]` validates and is returned
unchanged; `["a.yaml", "b.txt"]` fails with the `PathValidationError`;
and a failing manifest `"a.txt"` aborts the run. -/
theorem path_validation_amended_witness :
    assert_paths_are_yaml_files ["a.yaml"] = .ok ["a.yaml"] ∧
    assert_paths_are_yaml_files ["a.yaml", "b.txt"] =
      .err NOT_YAML_FILE_PATH_ERROR_MESSAGE ∧
    run (fun _ => some "FOO:bar") "a.txt" = none :=
  ⟨(path_validation_amended.1 ["a.yaml"]).mpr (by decide),
   path_validation_amended.2.2.1 ["a.yaml"] "b.txt" "txt" [] (by decide) (by decide)
     (by decide),
   path_validation_amended.2.2.2 "a.txt" NOT_YAML_FILE_PATH_ERROR_MESSAGE
     (by decide) (fun _ => some "FOO:bar")⟩

/-- C6 (code behavior at the failing input): a path with no extension —
including the empty path of a blank manifest line — does *not* produce the
`PathValidationError`; the predicate `path.extension().unwrap()` panics
(`Option::unwrap` on `None`), modelled by `ValidateResult.panic`. -/
theorem no_extension_panics_not_validation_error :
    extension "" = none ∧ extension "noext" = none ∧
    assert_paths_are_yaml_files [""] = ValidateResult.panic ∧
    assert_paths_are_yaml_files ["noext"] = ValidateResult.panic ∧
    ∀ msg, assert_paths_are_yaml_files [""] ≠ ValidateResult.err msg := by
  refine ⟨by decide, by decide, by decide, by decide, ?_⟩
  intro msg h
  rw [show assert_paths_are_yaml_files [""] = ValidateResult.panic
    from by decide] at h
  exact ValidateResult.noConfusion h

/-- C7: whenever validation or extraction fails, the run aborts and
`write_env_file` is never reached (the output path stays untouched); and
conversely the output is written only after both stages succeeded. -/
theorem no_output_on_failed_run (fs : String → Option String) (config : String) :
    (∀ msg, assert_paths_are_yaml_files (read_config_file config) = .err msg →
      run fs config = none) ∧
    (assert_paths_are_yaml_files (read_config_file config) = .panic →
      run fs config = none) ∧
    (∀ paths msg, assert_paths_are_yaml_files (read_config_file config) = .ok paths →
      create_env_hashmap fs paths [] = .err msg → run fs config = none) ∧
    (∀ out, run fs config = some out → ∃ paths m,
      assert_paths_are_yaml_files (read_config_file config) = .ok paths ∧
      create_env_hashmap fs paths [] = .ok m ∧ out = convert_map_to_string m) := by
  refine ⟨?_, ?_, ?_, ?_⟩
  · intro msg h
    simp only [run, h]
  · intro h
    simp only [run, h]
  · intro paths msg h1 h2
    simp only [run, h1, h2]
  · intro out h
    simp only [run] at h
    cases hv : assert_paths_are_yaml_files (read_config_file config) with
    | ok paths =>
      simp only [hv] at h
      cases he : create_env_hashmap fs paths [] with
      | ok m =>
        simp only [he, Option.some.injEq] at h
        exact ⟨paths, m, rfl, he, h.symm⟩
      | err msg =>
        simp only [he] at h
        exact absurd h (by simp)
      | panicRead msg =>
        simp only [he] at h
        exact absurd h (by simp)
    | err msg =>
      simp only [hv] at h
      exact absurd h (by simp)
    | panic =>
      simp only [hv] at h
      exact absurd h (by simp)

/-- Witness for C7: the spec's two failure scenarios — manifest `"a.txt"`
(validation failure) and `a.yaml` content `"FOO:bar\nnocolonhere"`
(extraction failure) — both abort the run before any output. -/
theorem no_output_on_failed_run_witness :
    run (fun _ => some "FOO:bar") "a.txt" = none ∧
    run (fun _ => some "FOO:bar\nnocolonhere") "a.yaml" = none :=
  ⟨(no_output_on_failed_run (fun _ => some "FOO:bar") "a.txt").1
      NOT_YAML_FILE_PATH_ERROR_MESSAGE (by decide),
   (no_output_on_failed_run (fun _ => some "FOO:bar\nnocolonhere") "a.yaml").2.2.1
      ["a.yaml"] (create_yaml_content_validation_err "a.yaml") (by decide)
      (by decide)⟩

/-- C8: a line `:value` extracts the pair with empty key, a line `key:`
extracts the pair with empty value — both accepted since a colon was
found — while an entirely empty line has no colon and fails the whole
file. -/
theorem leading_trailing_colon_lines (v k : String) (hk : ':' ∉ k.toList) :
    parseEnvLine (":" ++ v) = some ("", v) ∧
    parseEnvLine (k ++ ":") = some (k, "") ∧
    parseEnvLine "" = none ∧
    (∀ (fs : String → Option String) path rest m file,
      fs path = some file → "" ∈ rustLines file →
      create_env_hashmap fs (path :: rest) m =
        .err (create_yaml_content_validation_err path)) ∧
    extract_file_pairs ":value\nkey:" = some [("", "value"), ("key", "")] := by
  refine ⟨?_, ?_, rfl, ?_, by decide⟩
  · have hl : (":" ++ v).toList = [] ++ ':' :: v.toList := by
      rw [toList_append]
      rfl
    simp only [parseEnvLine, hl,
      splitOnceChar_append [] v.toList (List.not_mem_nil ':'), mk_toList]
  · have hl : (k ++ ":").toList = k.toList ++ ':' :: [] := by
      rw [toList_append]
      rfl
    simp only [parseEnvLine, hl, splitOnceChar_append k.toList [] hk, mk_toList]
  · intro fs path rest m file hread hmem
    exact create_env_hashmap_cons_err rest m hread
      (extract_file_pairs_eq_none ⟨"", hmem, by decide⟩)

/-- Witness for C8 at `v = "value"`, `k = "key"`, and a file whose middle
line is empty. -/
theorem leading_trailing_colon_lines_witness :
    parseEnvLine (":" ++ "value") = some ("", "value") ∧
    parseEnvLine ("key" ++ ":") = some ("key", "") ∧
    create_env_hashmap (fun _ => some "A:1\n\nB:2") ["a.yaml"] [] =
      .err (create_yaml_content_validation_err "a.yaml") :=
  ⟨(leading_trailing_colon_lines "value" "key" (by decide)).1,
   (leading_trailing_colon_lines "value" "key" (by decide)).2.1,
   (leading_trailing_colon_lines "value" "key" (by decide)).2.2.2.1
     (fun _ => some "A:1\n\nB:2") "a.yaml" [] [] "A:1\n\nB:2" rfl (by decide)⟩

/-- C9: a source file with empty content yields zero lines, so extraction
succeeds and contributes zero pairs: the file is skipped without error. -/
theorem empty_file_contributes_nothing (fs : String → Option String)
    (path : String) (rest : List String) (m : List (String × String))
    (h : fs path = some "") :
    create_env_hashmap fs (path :: rest) m = create_env_hashmap fs rest m ∧
    create_env_hashmap fs [path] m = .ok m := by
  constructor
  · rw [create_env_hashmap_cons_ok rest m h
      (show extract_file_pairs "" = some [] from rfl)]
    rfl
  · rw [create_env_hashmap_cons_ok [] m h
      (show extract_file_pairs "" = some [] from rfl)]
    rfl

/-- Witness for C9: an empty `a.yaml` leaves the accumulated map as is and
the run succeeds. -/
theorem empty_file_contributes_nothing_witness :
    create_env_hashmap (fun _ => some "") ["a.yaml"] [("X", "1")] =
      .ok [("X", "1")] :=
  (empty_file_contributes_nothing (fun _ => some "") "a.yaml" [] [("X", "1")]
    rfl).2

/-- C10: raw keys `"A "` and `" A"` (from lines `A :1` and ` A:2`) differ,
so the map keeps two entries, yet both keys trim to `A`: the serialized
output has two lines with the same left-hand key. -/
theorem duplicate_trimmed_keys_possible :
    create_env_hashmap (fun _ => some "A :1\n A:2") ["a.yaml"] [] =
      .ok [("A ", "1"), (" A", "2")] ∧
    ("A " : String) ≠ " A" ∧
    rustTrim "A " = "A" ∧ rustTrim " A" = "A" ∧
    convert_map_to_string [("A ", "1"), (" A", "2")] = "A=1\nA=2\n" ∧
    rustLines "A=1\nA=2\n" = ["A=1", "A=2"] ∧
    (∀ l ∈ rustLines "A=1\nA=2\n",
      (splitOnceChar '=' l.toList).map (fun p => String.mk p.1) = some "A") := by
  decide

end YamlToEnv
